import Mathlib

/-!
Verification of the BUSCO-tracker scheduling and aggregation core.

The definitions embed, in order: the strided chunk slicer of
`scripts/run_busco_batch.py`, the chunk planner and scheduling entry point of
`scripts/build_matrix.py`, the per-unit executor shell of
`scripts/run_busco_analysis.py`, the batch loop of `scripts/run_busco_batch.py`,
and the fragment aggregator of `scripts/aggregate_results.py`.
-/

/-- Python slice `l[start::step]` for `step ≥ 1`: the elements whose index `k`
satisfies `start ≤ k` and `(k - start) % step = 0`, in index order.
This is the slice `pending_sorted[chunk_index::chunk_count]` of
`run_busco_batch.py`. -/
def pySlice {α : Type} (l : List α) (start step : Nat) : List α :=
  (List.range l.length).filterMap (fun k =>
    if start ≤ k ∧ (k - start) % step = 0 then l[k]? else none)

/-- Lexicographic comparison of character lists, the order Python's `sorted`
uses on strings (code-point order, shorter list first on a tie). -/
def lexLe : List Char → List Char → Bool
  | [], _ => true
  | _ :: _, [] => false
  | a :: as, b :: bs => if a < b then true else if b < a then false else lexLe as bs

/-- Lexicographic comparison of strings by their character data. -/
def strLe (a b : String) : Bool := lexLe a.data b.data

/-- `sorted(s)` on a Python set presented as the list of its elements:
deduplicate, then sort lexicographically.  Models
`sorted(set(annotations.keys()) - logged_ids)` once the set difference has been
taken. -/
def sortedUnique (ids : List String) : List String :=
  List.insertionSort (fun a b => strLe a b) ids.dedup

/-- The pending list of `run_busco_batch.py` line 74:
`sorted(set(annotations.keys()) - logged_ids)`. -/
def batchPendingSorted (annotIds loggedIds : List String) : List String :=
  sortedUnique (annotIds.filter (fun x => ¬ x ∈ loggedIds))

/-- Ceiling division on naturals: `math.ceil(a / k)` for `k > 0`. -/
def cdiv (a k : Nat) : Nat := (a + k - 1) / k

/-- The chunk-count computation of `build_matrix.py` (lines 96-108), starting
from `pending_count = len(pending_ids)`.  `maxPerJob = none` models
`--max-per-job` left at its default `None`; the inner `k = 0` test models
Python's falsy `if args.max_per_job:` guard. -/
def n_chunks (pending_count max_chunks : Nat) (maxPerJob : Option Nat) : Nat :=
  if pending_count = 0 then 0
  else
    match maxPerJob with
    | some k =>
      if k = 0 then min max_chunks pending_count
      else
        min max_chunks (cdiv (min (max_chunks * k) pending_count) k)
    | none => min max_chunks pending_count

/-- Modelled from the spec: the ChunkPlanner formula of section 4.2, written
exactly as the spec states it (ceiling of an exact division). -/
def plannerSpec (pending_count max_chunks : Nat) (maxPerJob : Option Nat) : Nat :=
  if pending_count = 0 then 0
  else
    match maxPerJob with
    | some k => min max_chunks (cdiv (min (max_chunks * k) pending_count) k)
    | none => min max_chunks pending_count

inductive MatrixOutcome : Type
  | fatal : MatrixOutcome
  | outputs : List Nat → Nat → Nat → MatrixOutcome
deriving DecidableEq

/-- One data row of `annotations.tsv`. -/
structure CatalogRow : Type where
  annotation_id : String
  annotation_url : String
  assembly_url : String
deriving DecidableEq

/-- One data row of `log.tsv` (the Log Ledger). -/
structure LogRecord : Type where
  annotation_id : String
  run_at : String
  result : String
  step : String
deriving DecidableEq

/-- `load_ids` of `build_matrix.py` applied to the catalog: the set of
non-empty `annotation_id` values (Python skips falsy ids). -/
def catalogIds (rows : List CatalogRow) : Finset String :=
  ((rows.filter (fun r => r.annotation_id ≠ "")).map
    (fun r => r.annotation_id)).toFinset

/-- `load_ids` of `build_matrix.py` applied to the Log Ledger. -/
def logIds (rows : List LogRecord) : Finset String :=
  ((rows.filter (fun r => r.annotation_id ≠ "")).map
    (fun r => r.annotation_id)).toFinset

/-- `load_ids` on a possibly missing file: a missing file is treated as an
empty id set. -/
def loadCatalogIds : Option (List CatalogRow) → Finset String
  | none => ∅
  | some rows => catalogIds rows

/-- `load_ids` on a possibly missing Log Ledger. -/
def loadLogIds : Option (List LogRecord) → Finset String
  | none => ∅
  | some rows => logIds rows

/-- `pending_ids = all_ids - logged_ids` (`build_matrix.py` line 90). -/
def pendingIds (catalog : Option (List CatalogRow))
    (ledger : Option (List LogRecord)) : Finset String :=
  loadCatalogIds catalog \ loadLogIds ledger

/-- `main` of `build_matrix.py`: the catalog/ledger files are `none` when
missing; the result is either a hard non-zero exit before any output is
written (`fatal`) or the triple of outputs `(matrix, chunk_count,
pending_count)`. -/
def buildMatrixMain (catalog : Option (List CatalogRow))
    (ledger : Option (List LogRecord)) (max_chunks : Nat)
    (maxPerJob : Option Nat) : MatrixOutcome :=
  let all_ids := loadCatalogIds catalog
  if all_ids = ∅ then
    match catalog with
    | none => .fatal
    | some _ => .outputs [] 0 0
  else
    let pending := all_ids \ loadLogIds ledger
    let n := n_chunks pending.card max_chunks maxPerJob
    .outputs (List.range n) n pending.card

/-- What one `subprocess.run` of `run_busco_analysis.py` can do from the batch
runner's point of view: terminate with an exit code, or make the launch itself
raise an unexpected exception. -/
inductive UnitLaunch : Type
  | exited : Nat → UnitLaunch
  | raised : UnitLaunch
deriving DecidableEq

/-- The per-unit loop of `run_busco_batch.py` (lines 85-124): count successes
and failures; a non-zero exit or a raised exception is counted as a failure
and never aborts the loop.  Returns `(succeeded, failed)`. -/
def chunkLoop : List UnitLaunch → Nat × Nat
  | [] => (0, 0)
  | o :: rest =>
    let p := chunkLoop rest
    match o with
    | .exited 0 => (p.1 + 1, p.2)
    | .exited (_ + 1) => (p.1, p.2 + 1)
    | .raised => (p.1, p.2 + 1)

/-- The process exit status of `run_busco_batch.py` once its argument parsing
and catalog load have succeeded: the loop runs, then `sys.exit(0)`
(line 129) unconditionally. -/
def batchExitCode (slice : List UnitLaunch) : Nat :=
  let _ := chunkLoop slice
  0

/-- `true` exactly for the launches the batch loop counts as failed. -/
def isFailedLaunch : UnitLaunch → Bool
  | .exited 0 => false
  | .exited (_ + 1) => true
  | .raised => true

/-- The external events `main` of `run_busco_analysis.py` branches on, in
program order; `true` means the step succeeds / the file is present. -/
structure UnitWorld : Type where
  scriptsPresent : Bool
  dlAnnotOk : Bool
  dlAssemblyOk : Bool
  extractOk : Bool
  proteinFilePresent : Bool
  lineagePresent : Bool
  buscoOk : Bool
  summaryPresent : Bool
deriving DecidableEq

/-- What one execution of `run_busco_analysis.py` leaves behind:
whether the result fragment file was created, the `(result, step)` rows
appended to the log fragment, and the process exit code. -/
structure UnitOutcome : Type where
  resultWritten : Bool
  logRows : List (String × String)
  exitCode : Nat
deriving DecidableEq

/-- `main` of `run_busco_analysis.py` (lines 174-312): each failing stage
appends one `fail` log row and exits 1; only the success path (line 296)
writes the result fragment.  A missing BUSCO summary raises inside the `try`
and is logged as `unexpected_error` by the handler at line 305. -/
def runUnitMain (w : UnitWorld) : UnitOutcome :=
  if ¬ w.scriptsPresent then ⟨false, [("fail", "script_missing")], 1⟩
  else if ¬ w.dlAnnotOk then ⟨false, [("fail", "download_annotation")], 1⟩
  else if ¬ w.dlAssemblyOk then ⟨false, [("fail", "download_assembly")], 1⟩
  else if ¬ w.extractOk then ⟨false, [("fail", "extract_proteins")], 1⟩
  else if ¬ w.proteinFilePresent then ⟨false, [("fail", "extract_proteins")], 1⟩
  else if ¬ w.lineagePresent then ⟨false, [("fail", "lineage_missing")], 1⟩
  else if ¬ w.buscoOk then ⟨false, [("fail", "run_busco")], 1⟩
  else if ¬ w.summaryPresent then ⟨false, [("fail", "unexpected_error")], 1⟩
  else ⟨true, [("success", "NA")], 0⟩

/-- A fragment file discovered by the aggregator's recursive scan: its path
and the data rows `read_fragment` returns for it (rows that carry all the
expected columns, projected to those columns). -/
structure Fragment (ρ : Type) : Type where
  path : String
  rows : List ρ
deriving DecidableEq

/-- One data row of a `result_*.tsv` fragment / of the Result Ledger, as the
string-valued columns `aggregate_results.py` handles. -/
structure BuscoRow : Type where
  annotation_id : String
  lineage : String
  busco_count : String
  complete : String
  single : String
  duplicated : String
  fragmented : String
  missing : String
deriving DecidableEq

def buscoId (r : BuscoRow) : String := r.annotation_id

def logRecId (r : LogRecord) : String := r.annotation_id

/-- Path order used by `sorted(artifacts_dir.rglob(...))`. -/
def pathLe {ρ : Type} (a b : Fragment ρ) : Prop := strLe a.path b.path

instance {ρ : Type} : DecidableRel (@pathLe ρ) := fun a b =>
  inferInstanceAs (Decidable (strLe a.path b.path = true))

/-- `sorted(artifacts_dir.rglob(...))` (lines 99-100): the discovered
fragments in ascending path order. -/
def sortFrags {ρ : Type} (frags : List (Fragment ρ)) : List (Fragment ρ) :=
  List.insertionSort pathLe frags

/-- All data rows the aggregation loop visits, in visit order. -/
def scanRows {ρ : Type} (frags : List (Fragment ρ)) : List ρ :=
  ((sortFrags frags).map Fragment.rows).flatten

/-- The acceptance loop of `aggregate_results.py` (lines 102-118): keep a row
only when its id is not yet in the seen-set, and extend the seen-set with each
accepted id. -/
def dedupNew {ρ : Type} (getId : ρ → String) : List String → List ρ → List ρ
  | _, [] => []
  | seen, r :: rs =>
    if getId r ∈ seen then dedupNew getId seen rs
    else r :: dedupNew getId (getId r :: seen) rs

/-- `load_existing_ids` (lines 29-39): the ids already committed to a ledger,
empty when the ledger file is missing. -/
def load_existing_ids {ρ : Type} (getId : ρ → String) :
    Option (List ρ) → List String
  | none => []
  | some rows => rows.map getId

/-- One aggregation pass over one ledger: `ensure_header` materialises a
missing ledger as header-only (no data rows), then `append_rows` appends the
accepted new rows after the existing ones (lines 92-121). -/
def aggLedger {ρ : Type} (getId : ρ → String) (ledger : Option (List ρ))
    (frags : List (Fragment ρ)) : List ρ :=
  ledger.getD [] ++ dedupNew getId (load_existing_ids getId ledger) (scanRows frags)

/-- `main` of `aggregate_results.py`: both ledgers after one pass. -/
def aggregateMain (resFrags : List (Fragment BuscoRow))
    (logFrags : List (Fragment LogRecord)) (busco : Option (List BuscoRow))
    (ledger : Option (List LogRecord)) : List BuscoRow × List LogRecord :=
  (aggLedger buscoId busco resFrags, aggLedger logRecId ledger logFrags)

theorem mem_pySlice {α : Type} {l : List α} {i N : Nat} {a : α} :
    a ∈ pySlice l i N ↔
      ∃ k, ∃ h : k < l.length, i ≤ k ∧ (k - i) % N = 0 ∧ l[k] = a := by
  unfold pySlice
  simp only [List.mem_filterMap, List.mem_range]
  constructor
  · rintro ⟨k, hk, hf⟩
    by_cases hc : i ≤ k ∧ (k - i) % N = 0
    · rw [if_pos hc] at hf
      rcases List.getElem?_eq_some.mp hf with ⟨h, he⟩
      exact ⟨k, h, hc.1, hc.2, he⟩
    · rw [if_neg hc] at hf; cases hf
  · rintro ⟨k, h, h1, h2, he⟩
    refine ⟨k, h, ?_⟩
    rw [if_pos ⟨h1, h2⟩, List.getElem?_eq_getElem h, he]

/-- For `i < N` the Python slice condition is exactly `k % N = i`. -/
theorem slice_cond_iff {i N k : Nat} (hiN : i < N) :
    (i ≤ k ∧ (k - i) % N = 0) ↔ k % N = i := by
  constructor
  · rintro ⟨hik, hmod⟩
    rcases Nat.dvd_of_mod_eq_zero hmod with ⟨m, hm⟩
    have hk : k = i + N * m := by omega
    subst hk
    simp [Nat.add_mul_mod_self_left, Nat.mod_eq_of_lt hiN]
  · intro hmod
    have hle : i ≤ k := hmod ▸ Nat.mod_le k N
    constructor
    · exact hle
    · have : k - i = N * (k / N) := by
        have := Nat.div_add_mod k N
        omega
      rw [this, Nat.mul_mod_right]

theorem mem_sortedUnique {a : String} {ids : List String} :
    a ∈ sortedUnique ids ↔ a ∈ ids := by
  unfold sortedUnique
  rw [(List.perm_insertionSort _ _).mem_iff]
  exact List.mem_dedup

theorem nodup_sortedUnique (ids : List String) : (sortedUnique ids).Nodup :=
  (List.perm_insertionSort _ _).nodup_iff.mpr (List.nodup_dedup ids)

theorem length_sortedUnique (ids : List String) :
    (sortedUnique ids).length = ids.dedup.length :=
  (List.perm_insertionSort _ _).length_eq

/-- Every element of the list belongs to exactly the stride slice indexed by
its position modulo `N`; conversely each slice only draws from the list. -/
theorem pySlice_union {α : Type} (l : List α) (N : Nat) (hN : 0 < N) (a : α) :
    a ∈ l ↔ ∃ i, i < N ∧ a ∈ pySlice l i N := by
  constructor
  · intro ha
    rcases List.mem_iff_getElem.mp ha with ⟨k, hk, he⟩
    refine ⟨k % N, Nat.mod_lt k hN, ?_⟩
    exact mem_pySlice.mpr ⟨k, hk, (slice_cond_iff (Nat.mod_lt k hN)).mpr rfl |>.1,
      ((slice_cond_iff (Nat.mod_lt k hN)).mpr rfl).2, he⟩
  · rintro ⟨i, _, hmem⟩
    rcases mem_pySlice.mp hmem with ⟨k, hk, _, _, he⟩
    exact he ▸ List.getElem_mem hk

/-- On a duplicate-free list, distinct stride slices are disjoint. -/
theorem pySlice_disjoint {α : Type} (l : List α) (hl : l.Nodup) {N i j : Nat}
    (hi : i < N) (hj : j < N) (hij : i ≠ j) (a : α)
    (hai : a ∈ pySlice l i N) (haj : a ∈ pySlice l j N) : False := by
  rcases mem_pySlice.mp hai with ⟨k1, hk1, h1a, h1b, he1⟩
  rcases mem_pySlice.mp haj with ⟨k2, hk2, h2a, h2b, he2⟩
  have hmod1 : k1 % N = i := (slice_cond_iff hi).mp ⟨h1a, h1b⟩
  have hmod2 : k2 % N = j := (slice_cond_iff hj).mp ⟨h2a, h2b⟩
  have hk12 : k1 = k2 := (List.Nodup.getElem_inj_iff hl).mp (by rw [he1, he2])
  exact hij (by rw [← hmod1, ← hmod2, hk12])

/-- `cdiv` really is the ceiling: for a positive divisor it is the least `n`
with `a ≤ n * k`. -/
theorem cdiv_is_ceil (a k : Nat) (hk : 0 < k) :
    a ≤ cdiv a k * k ∧ ∀ n, a ≤ n * k → cdiv a k ≤ n := by
  constructor
  · unfold cdiv
    have h1 : a + k - 1 < (a + k - 1) / k * k + k := Nat.lt_div_mul_add hk
    generalize (a + k - 1) / k * k = t at h1 ⊢
    omega
  · intro n hn
    unfold cdiv
    rw [Nat.div_le_iff_le_mul_add_pred hk]
    rw [Nat.mul_comm] at hn
    generalize hkn : k * n = t at hn ⊢
    omega

theorem lexLe_total : ∀ as bs : List Char, lexLe as bs = true ∨ lexLe bs as = true := by
  intro as
  induction as with
  | nil => intro bs; left; rfl
  | cons a as ih =>
    intro bs
    cases bs with
    | nil => right; rfl
    | cons b bs =>
      rcases lt_trichotomy a b with h | h | h
      · left; simp [lexLe, h]
      · subst h
        rcases ih bs with h1 | h1
        · left; simp [lexLe, lt_irrefl, h1]
        · right; simp [lexLe, lt_irrefl, h1]
      · right; simp [lexLe, h]

theorem lexLe_trans : ∀ as bs cs : List Char,
    lexLe as bs = true → lexLe bs cs = true → lexLe as cs = true := by
  intro as
  induction as with
  | nil => intro bs cs _ _; rfl
  | cons a as ih =>
    intro bs cs h1 h2
    cases bs with
    | nil => simp [lexLe] at h1
    | cons b bs =>
      cases cs with
      | nil => simp [lexLe] at h2
      | cons c cs =>
        by_cases hab : a < b
        · by_cases hbc : b < c
          · simp [lexLe, lt_trans hab hbc]
          · by_cases hcb : c < b
            · rw [lexLe, if_neg hbc, if_pos hcb] at h2; cases h2
            · have hbcd : b = c := le_antisymm (le_of_not_lt hcb) (le_of_not_lt hbc)
              subst hbcd
              simp [lexLe, hab]
        · by_cases hba : b < a
          · rw [lexLe, if_neg hab, if_pos hba] at h1; cases h1
          · have habe : a = b := le_antisymm (le_of_not_lt hba) (le_of_not_lt hab)
            subst habe
            rw [lexLe, if_neg hab, if_neg hba] at h1
            by_cases hac : a < c
            · simp [lexLe, hac]
            · by_cases hca : c < a
              · rw [lexLe, if_neg hac, if_pos hca] at h2; cases h2
              · rw [lexLe, if_neg hac, if_neg hca] at h2 ⊢
                exact ih bs cs h1 h2

theorem lexLe_antisymm : ∀ as bs : List Char,
    lexLe as bs = true → lexLe bs as = true → as = bs := by
  intro as
  induction as with
  | nil =>
    intro bs h1 h2
    cases bs with
    | nil => rfl
    | cons b bs => simp [lexLe] at h2
  | cons a as ih =>
    intro bs h1 h2
    cases bs with
    | nil => simp [lexLe] at h1
    | cons b bs =>
      by_cases hab : a < b
      · rw [lexLe, if_neg (lt_asymm hab), if_pos hab] at h2; cases h2
      · by_cases hba : b < a
        · rw [lexLe, if_neg hab, if_pos hba] at h1; cases h1
        · have habe : a = b := le_antisymm (le_of_not_lt hba) (le_of_not_lt hab)
          subst habe
          rw [lexLe, if_neg hab, if_neg hab] at h1 h2
          rw [ih bs h1 h2]

theorem strLe_total (a b : String) : strLe a b = true ∨ strLe b a = true :=
  lexLe_total a.data b.data

theorem strLe_trans {a b c : String} (h1 : strLe a b = true) (h2 : strLe b c = true) :
    strLe a c = true :=
  lexLe_trans a.data b.data c.data h1 h2

theorem strLe_antisymm {a b : String} (h1 : strLe a b = true) (h2 : strLe b a = true) :
    a = b := by
  have h := lexLe_antisymm a.data b.data h1 h2
  cases a; cases b; cases h; rfl

theorem dedupNew_mem_ids {ρ : Type} (getId : ρ → String) :
    ∀ (rows : List ρ) (seen : List String) (r : ρ), r ∈ rows →
      getId r ∈ seen ∨ getId r ∈ (dedupNew getId seen rows).map getId := by
  intro rows
  induction rows with
  | nil => intro seen r hr; cases hr
  | cons a rs ih =>
    intro seen r hr
    by_cases ha : getId a ∈ seen
    · rw [dedupNew, if_pos ha]
      rcases List.mem_cons.mp hr with rfl | hr'
      · exact Or.inl ha
      · exact ih seen r hr'
    · rw [dedupNew, if_neg ha]
      rcases List.mem_cons.mp hr with rfl | hr'
      · right; simp
      · rcases ih (getId a :: seen) r hr' with hs | hd
        · rcases List.mem_cons.mp hs with heq | hseen
          · right; rw [heq]; simp
          · exact Or.inl hseen
        · right
          rw [List.map_cons]
          exact List.mem_cons_of_mem _ hd

theorem dedupNew_eq_nil {ρ : Type} (getId : ρ → String) :
    ∀ (rows : List ρ) (seen : List String),
      (∀ r ∈ rows, getId r ∈ seen) → dedupNew getId seen rows = [] := by
  intro rows
  induction rows with
  | nil => intro seen _; rfl
  | cons a rs ih =>
    intro seen h
    rw [dedupNew, if_pos (h a (List.mem_cons_self a rs))]
    exact ih seen (fun r hr => h r (List.mem_cons_of_mem _ hr))

theorem load_existing_ids_eq {ρ : Type} (getId : ρ → String)
    (ledger : Option (List ρ)) :
    load_existing_ids getId ledger = (ledger.getD []).map getId := by
  cases ledger <;> rfl

/-- Re-running the aggregation pass on the ledger it just produced, over the
same fragments, appends nothing. -/
theorem aggLedger_idem {ρ : Type} (getId : ρ → String)
    (ledger : Option (List ρ)) (frags : List (Fragment ρ)) :
    aggLedger getId (some (aggLedger getId ledger frags)) frags
      = aggLedger getId ledger frags := by
  have hnil : dedupNew getId
      (load_existing_ids getId (some (aggLedger getId ledger frags)))
      (scanRows frags) = [] := by
    apply dedupNew_eq_nil
    intro r hr
    rw [load_existing_ids_eq]
    show getId r ∈ (aggLedger getId ledger frags).map getId
    unfold aggLedger
    rw [List.map_append, List.mem_append]
    rw [← load_existing_ids_eq]
    exact dedupNew_mem_ids getId (scanRows frags) _ r hr
  show (some (aggLedger getId ledger frags)).getD [] ++ _ = _
  rw [hnil, Option.getD_some, List.append_nil]

/-- Two sorted fragment lists that are permutations of each other and have
duplicate-free paths are equal. -/
theorem sorted_eq_of_perm_of_nodup_paths {ρ : Type} :
    ∀ l1 l2 : List (Fragment ρ), l1.Perm l2 → l1.Sorted pathLe →
      l2.Sorted pathLe → (l1.map Fragment.path).Nodup → l1 = l2 := by
  intro l1
  induction l1 with
  | nil => intro l2 hp _ _ _; exact hp.nil_eq
  | cons a t1 ih =>
    intro l2 hp hs1 hs2 hnd
    cases l2 with
    | nil => cases (List.Perm.nil_eq hp.symm)
    | cons b t2 =>
      have hab : a = b := by
        rcases List.mem_cons.mp (hp.subset (List.mem_cons_self a t1)) with h | ha2
        · exact h
        rcases List.mem_cons.mp (hp.symm.subset (List.mem_cons_self b t2)) with h | hb1
        · exact h.symm
        have h1 : pathLe a b := (List.sorted_cons.mp hs1).1 b hb1
        have h2 : pathLe b a := (List.sorted_cons.mp hs2).1 a ha2
        have hpath : a.path = b.path := strLe_antisymm h1 h2
        have hin : a.path ∈ t1.map Fragment.path := by
          rw [hpath]; exact List.mem_map_of_mem _ hb1
        rw [List.map_cons, List.nodup_cons] at hnd
        exact absurd hin hnd.1
      subst hab
      rw [List.map_cons, List.nodup_cons] at hnd
      rw [ih t2 hp.cons_inv (List.sorted_cons.mp hs1).2
        (List.sorted_cons.mp hs2).2 hnd.2]

/-- The sorted-path ordering makes the scan order canonical: two discovery
orders of the same fragments sort to the same list, provided paths are
distinct (as filesystem paths are). -/
theorem sortFrags_perm_eq {ρ : Type} {f1 f2 : List (Fragment ρ)}
    (hp : f1.Perm f2) (hnd : (f1.map Fragment.path).Nodup) :
    sortFrags f1 = sortFrags f2 := by
  haveI : IsTotal (Fragment ρ) pathLe := ⟨fun a b => strLe_total a.path b.path⟩
  haveI : IsTrans (Fragment ρ) pathLe := ⟨fun _ _ _ h1 h2 => strLe_trans h1 h2⟩
  apply sorted_eq_of_perm_of_nodup_paths
  · exact (List.perm_insertionSort pathLe f1).trans
      (hp.trans (List.perm_insertionSort pathLe f2).symm)
  · exact List.sorted_insertionSort pathLe f1
  · exact List.sorted_insertionSort pathLe f2
  · exact (((List.perm_insertionSort pathLe f1).map Fragment.path).nodup_iff).mpr hnd

/-- Aggregation output depends only on the fragment set, not on the discovery
order. -/
theorem aggLedger_det {ρ : Type} (getId : ρ → String) (ledger : Option (List ρ))
    {f1 f2 : List (Fragment ρ)} (hp : f1.Perm f2)
    (hnd : (f1.map Fragment.path).Nodup) :
    aggLedger getId ledger f1 = aggLedger getId ledger f2 := by
  unfold aggLedger scanRows
  rw [sortFrags_perm_eq hp hnd]

/-- Claim C1: for every finite set of pending ids and every chunk count
`N > 0`, slicing the lexicographically sorted pending list as
`pending_sorted[i::N]` yields `N` pairwise disjoint subsets whose union is
exactly the pending set; and on sorted `[a..h]` with `N = 4` the chunks are
`[a,e]`, `[b,f]`, `[c,g]`, `[d,h]`. -/
theorem chunk_slicer_partition :
    (∀ (ids : List String) (N : Nat), 0 < N →
      (∀ a, a ∈ ids ↔ ∃ i, i < N ∧ a ∈ pySlice (sortedUnique ids) i N) ∧
      (∀ i j, i < N → j < N → i ≠ j → ∀ a,
        a ∈ pySlice (sortedUnique ids) i N →
          a ∉ pySlice (sortedUnique ids) j N)) ∧
    pySlice (sortedUnique ["a","b","c","d","e","f","g","h"]) 0 4 = ["a","e"] ∧
    pySlice (sortedUnique ["a","b","c","d","e","f","g","h"]) 1 4 = ["b","f"] ∧
    pySlice (sortedUnique ["a","b","c","d","e","f","g","h"]) 2 4 = ["c","g"] ∧
    pySlice (sortedUnique ["a","b","c","d","e","f","g","h"]) 3 4 = ["d","h"] := by
  refine ⟨?_, by decide, by decide, by decide, by decide⟩
  intro ids N hN
  constructor
  · intro a
    rw [show (a ∈ ids) = (a ∈ sortedUnique ids) from propext mem_sortedUnique.symm]
    exact pySlice_union (sortedUnique ids) N hN a
  · intro i j hi hj hij a hai haj
    exact pySlice_disjoint (sortedUnique ids) (nodup_sortedUnique ids)
      hi hj hij a hai haj

theorem chunk_slicer_partition_witness :
    0 < 2 ∧
      ("b" ∈ ["b", "a"] ↔
        ∃ i, i < 2 ∧ "b" ∈ pySlice (sortedUnique ["b", "a"]) i 2) :=
  ⟨by decide, ((chunk_slicer_partition.1 ["b", "a"] 2 (by decide)).1 "b")⟩

/-- Claim C5: the planner computes exactly the specified chunk-count formula
for every `pending_count`, every `max_chunks > 0`, and an absent or positive
`max_per_job`. -/
theorem planner_matches_spec_formula (p m : Nat) (mpj : Option Nat)
    (_hm : 0 < m) (hmpj : mpj = none ∨ ∃ k, 0 < k ∧ mpj = some k) :
    n_chunks p m mpj = plannerSpec p m mpj := by
  rcases hmpj with rfl | ⟨k, hk, rfl⟩
  · rfl
  · unfold n_chunks plannerSpec
    by_cases hp : p = 0
    · rw [if_pos hp, if_pos hp]
    · rw [if_neg hp, if_neg hp]
      show (if k = 0 then m ⊓ p else m ⊓ cdiv (m * k ⊓ p) k)
        = m ⊓ cdiv (m * k ⊓ p) k
      rw [if_neg hk.ne']

theorem planner_matches_spec_formula_witness :
    0 < 2 ∧ n_chunks 5 2 (some 3) = plannerSpec 5 2 (some 3) :=
  ⟨by decide, planner_matches_spec_formula 5 2 (some 3) (by decide)
    (Or.inr ⟨3, by decide, rfl⟩)⟩

/-- Claim C10: a positive chunk count never exceeds the number of pending ids,
so every strided slice `pending_sorted[i::N]` handed to a chunk worker is
non-empty. -/
theorem positive_chunks_le_pending (p m : Nat) (mpj : Option Nat)
    (hpos : 0 < n_chunks p m mpj) :
    n_chunks p m mpj ≤ p ∧
    ∀ l : List String, l.length = p → ∀ i, i < n_chunks p m mpj →
      pySlice l i (n_chunks p m mpj) ≠ [] := by
  have hle : n_chunks p m mpj ≤ p := by
    unfold n_chunks
    by_cases hp : p = 0
    · rw [if_pos hp]; exact Nat.zero_le p
    · rw [if_neg hp]
      rcases mpj with _ | k
      · exact Nat.min_le_right m p
      · show (if k = 0 then m ⊓ p else m ⊓ cdiv (m * k ⊓ p) k) ≤ p
        by_cases hk : k = 0
        · rw [if_pos hk]; exact Nat.min_le_right m p
        · rw [if_neg hk]
          have hkpos : 0 < k := Nat.pos_of_ne_zero hk
          have hct : cdiv (m * k ⊓ p) k ≤ m * k ⊓ p :=
            (cdiv_is_ceil (m * k ⊓ p) k hkpos).2 (m * k ⊓ p)
              (Nat.le_mul_of_pos_right _ hkpos)
          exact le_trans (Nat.min_le_right _ _)
            (le_trans hct (Nat.min_le_right _ _))
  refine ⟨hle, ?_⟩
  intro l hlen i hi hne
  have hiLen : i < l.length := by rw [hlen]; exact lt_of_lt_of_le hi hle
  have hmem : l[i] ∈ pySlice l i (n_chunks p m mpj) :=
    mem_pySlice.mpr ⟨i, hiLen, le_refl i, by simp, rfl⟩
  rw [hne] at hmem
  cases hmem

theorem positive_chunks_le_pending_witness :
    0 < n_chunks 3 2 none ∧ n_chunks 3 2 none ≤ 3 ∧
      pySlice ["x", "y", "z"] 0 (n_chunks 3 2 none) ≠ [] :=
  ⟨by decide, (positive_chunks_le_pending 3 2 none (by decide)).1,
    (positive_chunks_le_pending 3 2 none (by decide)).2 ["x", "y", "z"]
      (by decide) 0 (by decide)⟩

/-- Claim C3 fails on the code: with `max_chunks = 2`, `max_per_job = 1` and
four pending ids the planner does return `chunk_count = 2`, but the two chunk
workers slice the whole pending list, so all four ids are dispatched in this
trigger — the union of dispatched ids has size `4`, not `max_chunks *
max_per_job = 2`, and the two ids the planner logged as deferred (`c`, `d`)
are dispatched anyway. -/
theorem throttle_cap_not_enforced :
    n_chunks 4 2 (some 1) = 2 ∧
    (pySlice (batchPendingSorted ["a", "b", "c", "d"] []) 0 2).length +
      (pySlice (batchPendingSorted ["a", "b", "c", "d"] []) 1 2).length = 4 ∧
    "c" ∈ pySlice (batchPendingSorted ["a", "b", "c", "d"] []) 0 2 ∧
    "d" ∈ pySlice (batchPendingSorted ["a", "b", "c", "d"] []) 1 2 ∧
    (4 : Nat) ≠ 2 * 1 := by
  refine ⟨by decide, by decide, by decide, by decide, by decide⟩

/-- Claim C6: pending computation is monotone in the Log Ledger — any id with
a LogRecord row, whatever its outcome, is excluded from the pending set, and
the pending set is exactly the catalog ids minus the logged ids. -/
theorem logged_never_pending (catalog : Option (List CatalogRow))
    (rows : List LogRecord) (r : LogRecord) (hr : r ∈ rows) :
    r.annotation_id ∉ pendingIds catalog (some rows) ∧
    pendingIds catalog (some rows) = loadCatalogIds catalog \ logIds rows := by
  refine ⟨?_, rfl⟩
  intro hmem
  rw [pendingIds, Finset.mem_sdiff] at hmem
  by_cases hid : r.annotation_id = ""
  · have : r.annotation_id ∉ loadCatalogIds catalog := by
      cases catalog with
      | none => simp [loadCatalogIds]
      | some cr =>
        simp only [loadCatalogIds, catalogIds, List.mem_toFinset, List.mem_map]
        rintro ⟨c, hc, hce⟩
        exact of_decide_eq_true (List.mem_filter.mp hc).2 (hce.trans hid)
    exact this hmem.1
  · apply hmem.2
    show r.annotation_id ∈ logIds rows
    simp only [logIds, List.mem_toFinset, List.mem_map]
    exact ⟨r, List.mem_filter.mpr ⟨hr, by simpa using hid⟩, rfl⟩

theorem logged_never_pending_witness :
    (⟨"x", "2024-01-01", "fail", "run_busco"⟩ : LogRecord) ∈
        [(⟨"x", "2024-01-01", "fail", "run_busco"⟩ : LogRecord)] ∧
    "x" ∉ pendingIds (some [⟨"x", "u", "v"⟩])
        (some [⟨"x", "2024-01-01", "fail", "run_busco"⟩]) :=
  ⟨by decide,
    (logged_never_pending (some [⟨"x", "u", "v"⟩])
      [⟨"x", "2024-01-01", "fail", "run_busco"⟩]
      ⟨"x", "2024-01-01", "fail", "run_busco"⟩ (by decide)).1⟩

/-- Claim C7: a missing catalog makes the scheduling entry point fail hard
before writing any output, while a catalog that exists but yields zero unit
ids succeeds with `matrix = []`, `chunk_count = 0`, `pending_count = 0`. -/
theorem catalog_missing_vs_empty :
    (∀ (ledger : Option (List LogRecord)) (m : Nat) (mpj : Option Nat),
      buildMatrixMain none ledger m mpj = MatrixOutcome.fatal) ∧
    (∀ (rows : List CatalogRow) (ledger : Option (List LogRecord))
        (m : Nat) (mpj : Option Nat), catalogIds rows = ∅ →
      buildMatrixMain (some rows) ledger m mpj = MatrixOutcome.outputs [] 0 0) := by
  constructor
  · intro ledger m mpj
    rfl
  · intro rows ledger m mpj h
    unfold buildMatrixMain
    simp only [loadCatalogIds, h, if_pos]

theorem catalog_missing_vs_empty_witness :
    buildMatrixMain none (some []) 1 none = MatrixOutcome.fatal ∧
    catalogIds [⟨"", "u", "v"⟩] = ∅ ∧
    buildMatrixMain (some [⟨"", "u", "v"⟩]) (some []) 1 none
      = MatrixOutcome.outputs [] 0 0 :=
  ⟨catalog_missing_vs_empty.1 (some []) 1 none, by decide,
    catalog_missing_vs_empty.2 [⟨"", "u", "v"⟩] (some []) 1 none (by decide)⟩

/-- Claim C8: once its arguments and catalog are loaded, the batch runner
always exits 0 — non-zero unit exits and raised launches are only counted as
failures; every unit is accounted for as a success or a failure. -/
theorem batch_runner_exits_zero (slice : List UnitLaunch) :
    batchExitCode slice = 0 ∧
    (chunkLoop slice).1 + (chunkLoop slice).2 = slice.length ∧
    (chunkLoop slice).2 = (slice.filter isFailedLaunch).length := by
  refine ⟨rfl, ?_, ?_⟩
  · induction slice with
    | nil => rfl
    | cons o rest ih =>
      cases o with
      | exited c =>
        cases c with
        | zero => simpa [chunkLoop] using by omega
        | succ c' => simp only [chunkLoop, List.length_cons]; omega
      | raised => simp only [chunkLoop, List.length_cons]; omega
  · induction slice with
    | nil => rfl
    | cons o rest ih =>
      cases o with
      | exited c =>
        cases c with
        | zero => simpa [chunkLoop, isFailedLaunch] using ih
        | succ c' => simpa [chunkLoop, isFailedLaunch] using ih
      | raised => simpa [chunkLoop, isFailedLaunch] using ih

/-- Claim C4 fails on the code: every execution writes exactly one log row,
but on a failure path no result fragment is created at all — for a unit whose
annotation download fails, `run_busco_analysis.py` appends only the
`(fail, download_annotation)` log row and exits 1; the result fragment file is
written solely on the success path. -/
theorem unit_executor_result_fragment_missing_on_failure :
    (∀ w : UnitWorld, (runUnitMain w).logRows.length = 1) ∧
    (∀ w : UnitWorld, (runUnitMain w).resultWritten = true ↔
      (runUnitMain w).exitCode = 0) ∧
    (runUnitMain ⟨true, false, true, true, true, true, true, true⟩).resultWritten
      = false ∧
    (runUnitMain ⟨true, false, true, true, true, true, true, true⟩).logRows
      = [("fail", "download_annotation")] := by
  refine ⟨?_, ?_, rfl, rfl⟩
  · intro w
    unfold runUnitMain
    split_ifs <;> rfl
  · intro w
    unfold runUnitMain
    split_ifs <;> simp

/-- Claim C2: aggregation is idempotent — re-running the pass over the same
unchanged fragment set appends no rows to either ledger — and deterministic:
because fragments are visited in sorted-path order, any discovery order of
the same fragment set (with distinct paths) yields identical ledgers. -/
theorem aggregation_idempotent_and_order_independent :
    (∀ (busco : Option (List BuscoRow)) (resFrags : List (Fragment BuscoRow)),
      aggLedger buscoId (some (aggLedger buscoId busco resFrags)) resFrags
        = aggLedger buscoId busco resFrags) ∧
    (∀ (ledger : Option (List LogRecord)) (logFrags : List (Fragment LogRecord)),
      aggLedger logRecId (some (aggLedger logRecId ledger logFrags)) logFrags
        = aggLedger logRecId ledger logFrags) ∧
    (∀ (busco : Option (List BuscoRow)) (f1 f2 : List (Fragment BuscoRow)),
      f1.Perm f2 → (f1.map Fragment.path).Nodup →
      aggLedger buscoId busco f1 = aggLedger buscoId busco f2) ∧
    (∀ (ledger : Option (List LogRecord)) (f1 f2 : List (Fragment LogRecord)),
      f1.Perm f2 → (f1.map Fragment.path).Nodup →
      aggLedger logRecId ledger f1 = aggLedger logRecId ledger f2) :=
  ⟨fun b rf => aggLedger_idem buscoId b rf,
   fun l lf => aggLedger_idem logRecId l lf,
   fun b _ _ hp hnd => aggLedger_det buscoId b hp hnd,
   fun l _ _ hp hnd => aggLedger_det logRecId l hp hnd⟩

theorem aggregation_idempotent_and_order_independent_witness :
    (([(⟨"j1/log_x.tsv", [⟨"x", "t1", "fail", "run_busco"⟩]⟩ : Fragment LogRecord),
       ⟨"j2/log_y.tsv", [⟨"y", "t2", "success", "NA"⟩]⟩].map Fragment.path).Nodup) ∧
    aggLedger logRecId (some [])
        [⟨"j1/log_x.tsv", [⟨"x", "t1", "fail", "run_busco"⟩]⟩,
         ⟨"j2/log_y.tsv", [⟨"y", "t2", "success", "NA"⟩]⟩]
      = aggLedger logRecId (some [])
        [⟨"j2/log_y.tsv", [⟨"y", "t2", "success", "NA"⟩]⟩,
         ⟨"j1/log_x.tsv", [⟨"x", "t1", "fail", "run_busco"⟩]⟩] :=
  ⟨by decide,
    aggregation_idempotent_and_order_independent.2.2.2 (some []) _ _
      (List.Perm.swap (⟨"j2/log_y.tsv", [⟨"y", "t2", "success", "NA"⟩]⟩ : Fragment LogRecord)
        (⟨"j1/log_x.tsv", [⟨"x", "t1", "fail", "run_busco"⟩]⟩ : Fragment LogRecord) [])
      (by decide)⟩

/-- Claim C9: an aggregation pass only appends — the prior content of each
ledger is an unmodified prefix of the ledger after the pass, in its original
order, followed only by the newly accepted rows. -/
theorem aggregation_preserves_existing_rows :
    (∀ (busco : List BuscoRow) (resFrags : List (Fragment BuscoRow)),
      ∃ newRows, aggLedger buscoId (some busco) resFrags = busco ++ newRows) ∧
    (∀ (ledger : List LogRecord) (logFrags : List (Fragment LogRecord)),
      ∃ newRows, aggLedger logRecId (some ledger) logFrags = ledger ++ newRows) :=
  ⟨fun _ _ => ⟨_, rfl⟩, fun _ _ => ⟨_, rfl⟩⟩
